import Mathlib

/-!
Verification of the scan-and-cache core of RecursiveGitUpdate.

The development shallowly embeds, in Lean:
  * the JSON-backed folder-candidates cache
    (recursivegitupdate/foldercandidatescache.py), and
  * the recursive folder classifier and update orchestration
    (recursivegitupdate/recursive_update.py).

Python strings are modelled as Lean String values, operated on through
character lists so that all definitions kernel-reduce on concrete inputs.
Python pathlib.PurePosixPath values are modelled by PyPath (an absolute flag
plus a normalized component list); Python floats are modelled as exact
rationals (every numeric literal used in a theorem below is exactly
representable as a double, so no rounding is involved).  Python exceptions
are modelled with Except.
-/

/-! ## Character-list string operations

Python string primitives re-implemented structurally (the core Lean String
functions are compiled forms that do not kernel-reduce). -/

/-- Lexicographic code-point comparison, as Python compares strings. -/
def charListLeB : List Char → List Char → Bool
  | [], _ => true
  | _ :: _, [] => false
  | c :: cs, d :: ds => if c = d then charListLeB cs ds else decide (c.toNat < d.toNat)

/-- Python string less-or-equal (code-point lexicographic). -/
def strLeB (s t : String) : Bool := charListLeB s.data t.data

/-- Python str.lower; Char.toLower agrees with Python on the ASCII names used
by the program. -/
def pyLower (s : String) : String := ⟨s.data.map Char.toLower⟩

/-- Split a character list at every occurrence of a separator character, as
Python str.split with a one-character separator. -/
def splitChar (sep : Char) : List Char → List (List Char)
  | [] => [[]]
  | c :: cs =>
    if c = sep then [] :: splitChar sep cs
    else
      match splitChar sep cs with
      | [] => [[c]]
      | g :: gs => (c :: g) :: gs

/-- Whether the first list is a prefix of the second (Boolean). -/
def hasPrefixB : List Char → List Char → Bool
  | [], _ => true
  | _ :: _, [] => false
  | a :: as, b :: bs => a = b && hasPrefixB as bs

/-- Python substring containment (the "in" operator on strings). -/
def containsSubB (sub : List Char) : List Char → Bool
  | [] => sub.isEmpty
  | c :: cs => hasPrefixB sub (c :: cs) || containsSubB sub cs

/-- Python "sub in s" for strings. -/
def strContainsB (s sub : String) : Bool := containsSubB sub.data s.data

/-- Strip leading and trailing whitespace, as Python int() does before
parsing a numeric string. -/
def trimChars (cs : List Char) : List Char :=
  ((cs.dropWhile Char.isWhitespace).reverse.dropWhile Char.isWhitespace).reverse

/-- Value of a nonempty all-digit character list, if it is one. -/
def digitsVal : List Char → Option Nat
  | [] => none
  | cs =>
    if cs.all Char.isDigit then
      some (cs.foldl (fun n c => n * 10 + (c.toNat - 48)) 0)
    else none

/-- Python int(s) on a string: optional surrounding whitespace, an optional
sign, then decimal digits.  (Digit-group underscores and non-ASCII digits,
which Python also accepts, are not modelled; no theorem depends on them.) -/
def pyStrToInt (s : String) : Option Int :=
  match trimChars s.data with
  | '-' :: rest => (digitsVal rest).map (fun n => -(n : Int))
  | '+' :: rest => (digitsVal rest).map (fun n => (n : Int))
  | cs => (digitsVal cs).map (fun n => (n : Int))

/-! ## Paths

Model of pathlib.PurePosixPath: an absolute flag and the list of components,
with pure-name components ("" and "." dropped, as pathlib normalization
does).  Paths constructed by pyPathOfString are in normal form; the
predicate PyPath.canonical characterizes exactly the values that represent
genuine Python Path objects. -/

structure PyPath where
  absolute : Bool
  parts : List String
deriving DecidableEq

/-- Path(s) for a string s: absolute iff it starts with a slash; components
are the slash-separated pieces with empty and "." pieces dropped.
(The POSIX double-leading-slash corner case is not distinguished.) -/
def pyPathOfString (s : String) : PyPath :=
  { absolute := match s.data with | '/' :: _ => true | _ => false
    parts := ((splitChar '/' s.data).map String.mk).filter
      (fun c => !(c == "" || c == ".")) }

/-- str(p) for a Path p. -/
def PyPath.str (p : PyPath) : String :=
  if p.absolute then "/" ++ String.mk (List.intercalate ['/'] (p.parts.map String.data))
  else if p.parts.isEmpty then "."
  else String.mk (List.intercalate ['/'] (p.parts.map String.data))

/-- p.joinpath(name) for a plain entry name (as returned by os.listdir:
never empty, never containing a slash). -/
def PyPath.join (p : PyPath) (name : String) : PyPath :=
  { p with parts := p.parts ++ [name] }

/-- The values of PyPath that represent actual Python Path objects: those
fixed by string round-trip (Path(str(p)) == p holds for every Python Path). -/
def PyPath.canonical (p : PyPath) : Prop := pyPathOfString p.str = p

instance (p : PyPath) : Decidable p.canonical := by
  unfold PyPath.canonical; infer_instance

/-- p is a strict ancestor of q (p in q.parents): same anchor and p.parts a
proper prefix of q.parts. -/
def isStrictAncestor (p q : PyPath) : Prop :=
  p.absolute = q.absolute ∧ p.parts <+: q.parts ∧ p.parts ≠ q.parts

/-- p is an ancestor of q or equal to it. -/
def isAncestorOrEq (p q : PyPath) : Prop :=
  p.absolute = q.absolute ∧ p.parts <+: q.parts

instance (p q : PyPath) : Decidable (isStrictAncestor p q) := by
  unfold isStrictAncestor; infer_instance

instance (p q : PyPath) : Decidable (isAncestorOrEq p q) := by
  unfold isAncestorOrEq; infer_instance

/-! ## JSON values and Python exceptions

JsonVal models the result of json.load: jobj is a parsed Python dict (keys
are unique: JSON text with duplicate keys collapses during parsing, before
this model begins), jint a Python int, jnum a Python float modelled as an
exact rational. -/

inductive JsonVal where
  | jnull
  | jbool (b : Bool)
  | jint (n : Int)
  | jnum (q : ℚ)
  | jstr (s : String)
  | jarr (elts : List JsonVal)
  | jobj (fields : List (String × JsonVal))

/-- Exceptions raised along the cache load path. -/
inductive PyErr where
  | keyError (k : String)
  | typeError
  | attributeError
  | versionUnreadable
  | versionMismatch (actual : Int)
deriving DecidableEq

/-- Python int(v) for a JSON-decoded value: ints pass through, floats
truncate toward zero, bools map to 0/1, numeric strings parse; everything
else (None, lists, dicts) raises. -/
def pyIntOfJson : JsonVal → Option Int
  | .jint n => some n
  | .jnum q => some (q.num.tdiv q.den)
  | .jbool b => some (if b then 1 else 0)
  | .jstr s => pyStrToInt s
  | _ => none

/-! ## The folder-candidates cache (foldercandidatescache.py) -/

/-- Expected cache schema version (CACHE_VERSION = 3). -/
def CACHE_VERSION : Int := 3

/-- CacheData dataclass.  root and the path lists inside candidates hold
Path values after loading (and before saving); cache_version is dynamically
typed in Python, so it stays a JSON value here (the dataclass default is
the integer CACHE_VERSION). -/
structure CacheData where
  root : PyPath
  candidates : List (String × List PyPath)
  cache_version : JsonVal

/-- Observable state of the cache file used by load(): whether the path
is an existing regular file, whether stat() fails in get_age, the age in
days ((time() - st_mtime)/3600/24) when stat succeeds, and the parsed JSON
content (files that fail json parsing are outside this model; no claim
involves them). -/
structure CacheFileState where
  present : Bool
  statFails : Bool
  ageDays : ℚ
  content : JsonVal

/-- sys.maxsize, the sentinel age returned when stat fails. -/
def SYS_MAXSIZE : ℚ := (9223372036854775807 : ℚ)

namespace FolderCandidatesCache

/-- get_age(): the file age in days, or sys.maxsize if stat raises. -/
def get_age (st : CacheFileState) : ℚ :=
  if st.statFails then SYS_MAXSIZE else st.ageDays

/-- __is_outdated(): age strictly above the configured maximum. -/
def is_outdated (outdatedAgeMaxDays : ℚ) (st : CacheFileState) : Bool :=
  decide (get_age st > outdatedAgeMaxDays)

/-- The three-field record rebuilt by __read before any conversion. -/
structure RawRead where
  root : JsonVal
  candidates : JsonVal
  cache_version : JsonVal

/-- __read(): index the parsed JSON dict by "root", "candidates",
"cache_version" in that order; a missing key raises KeyError, a non-object
top level raises TypeError. -/
def read (content : JsonVal) : Except PyErr RawRead :=
  match content with
  | .jobj fields =>
    match fields.lookup "root" with
    | none => .error (.keyError "root")
    | some r =>
      match fields.lookup "candidates" with
      | none => .error (.keyError "candidates")
      | some c =>
        match fields.lookup "cache_version" with
        | none => .error (.keyError "cache_version")
        | some v => .ok ⟨r, c, v⟩
  | _ => .error .typeError

/-- __check_version: int(data.cache_version) must succeed and equal
CACHE_VERSION; otherwise RuntimeError. -/
def check_version (v : JsonVal) : Except PyErr Unit :=
  match pyIntOfJson v with
  | none => .error .versionUnreadable
  | some n => if n = CACHE_VERSION then .ok () else .error (.versionMismatch n)

/-- Path(v) on a JSON-decoded value: only strings convert; other values
raise TypeError. -/
def pathOfJson : JsonVal → Except PyErr PyPath
  | .jstr s => .ok (pyPathOfString s)
  | _ => .error .typeError

/-- Convert one candidates list: every element must be a string. -/
def pathListOfJson : List JsonVal → Except PyErr (List PyPath)
  | [] => .ok []
  | v :: rest =>
    match pathOfJson v with
    | .error e => .error e
    | .ok p =>
      match pathListOfJson rest with
      | .error e => .error e
      | .ok ps => .ok (p :: ps)

/-- Convert the candidates dict values from string lists to Path lists
(load's in-place loop over data.candidates.values()).  A non-list value
raises (a dict-valued entry, which Python would mangle without raising
a string conversion error, is modelled as an error as well; no claim
involves one). -/
def candidatesOfJson : JsonVal → Except PyErr (List (String × List PyPath))
  | .jobj fields => go fields
  | _ => .error .attributeError
where
  go : List (String × JsonVal) → Except PyErr (List (String × List PyPath))
    | [] => .ok []
    | (k, .jarr elts) :: rest =>
      match pathListOfJson elts with
      | .error e => .error e
      | .ok ps =>
        match go rest with
        | .error e => .error e
        | .ok tail => .ok ((k, ps) :: tail)
    | (_, _) :: _ => .error .typeError

/-- load(): absent file or outdated file yields None; otherwise read the
JSON, validate the schema version, then convert root and the candidate
lists back to Path values. -/
def load (outdatedAgeMaxDays : ℚ) (st : CacheFileState) :
    Except PyErr (Option CacheData) :=
  if st.present then
    if is_outdated outdatedAgeMaxDays st then .ok none
    else
      match read st.content with
      | .error e => .error e
      | .ok raw =>
        match check_version raw.cache_version with
        | .error e => .error e
        | .ok () =>
          match pathOfJson raw.root with
          | .error e => .error e
          | .ok root =>
            match candidatesOfJson raw.candidates with
            | .error e => .error e
            | .ok cands => .ok (some ⟨root, cands, raw.cache_version⟩)
  else .ok none

/-- The JSON document produced by __write via asdict with the Path-to-string
dict factory: fields in dataclass declaration order, Path values rendered
with str(). -/
def writeJson (d : CacheData) : JsonVal :=
  .jobj [("root", .jstr d.root.str),
         ("candidates", .jobj (d.candidates.map
             (fun kv => (kv.1, .jarr (kv.2.map (fun p => .jstr p.str)))))),
         ("cache_version", d.cache_version)]

/-- update(data) = __write(data): replace the cache file content. -/
def update (st : CacheFileState) (d : CacheData) : CacheFileState :=
  { st with present := true, content := writeJson d }

end FolderCandidatesCache

/-! ## Cache claims -/

/-- The rational 3.5 (exactly representable as a Python float). -/
def ratThreeHalf : ℚ := ⟨7, 2, by decide, by decide⟩

/-- A fresh, existing cache file whose cache_version field is the JSON
number 3.5. -/
def st35 : CacheFileState :=
  { present := true, statFails := false, ageDays := 0,
    content := .jobj [("root", .jstr "r"), ("candidates", .jobj []),
                      ("cache_version", .jnum ratThreeHalf)] }

/-- C1 (counterexample): a fresh existing cache file whose schema version
field is the float 3.5 — numerically different from the expected version
3 — does not make load() raise: int() truncation maps 3.5 to 3, the
version check passes, and load returns the record. -/
theorem load_version_float_counterexample :
    ratThreeHalf ≠ (3 : ℚ) ∧
    FolderCandidatesCache.load 1 st35 =
      .ok (some ⟨pyPathOfString "r", [], .jnum ratThreeHalf⟩) :=
  ⟨by decide, rfl⟩

/-- The version field of a parsed cache object is missing, non-numeric, or
numerically different from CACHE_VERSION after Python int() conversion
(which truncates floats toward zero). -/
def badVersionFieldB (fields : List (String × JsonVal)) : Bool :=
  match fields.lookup "cache_version" with
  | none => true
  | some v =>
    match pyIntOfJson v with
    | none => true
    | some n => n != CACHE_VERSION

/-- C1 (amended): for every existing, fresh cache file whose parsed content
is a JSON object whose schema version field is missing (KeyError), fails
Python int() conversion, or converts — with float truncation — to an
integer different from CACHE_VERSION, load() raises an error and never
returns absent. -/
theorem load_bad_version_raises (maxDays : ℚ) (st : CacheFileState)
    (fields : List (String × JsonVal))
    (hp : st.present = true) (hsf : st.statFails = false)
    (hage : st.ageDays ≤ maxDays)
    (hobj : st.content = .jobj fields)
    (hbad : badVersionFieldB fields = true) :
    ∃ e, FolderCandidatesCache.load maxDays st = .error e := by
  have hnot : FolderCandidatesCache.is_outdated maxDays st = false := by
    simp [FolderCandidatesCache.is_outdated, FolderCandidatesCache.get_age, hsf,
      not_lt.mpr hage]
  unfold FolderCandidatesCache.load FolderCandidatesCache.read
  rw [hp, hnot, hobj]
  simp only [if_true, Bool.false_eq_true, if_false]
  cases hr : fields.lookup "root" with
  | none => exact ⟨.keyError "root", by simp [hr]⟩
  | some r =>
  cases hc : fields.lookup "candidates" with
  | none => exact ⟨.keyError "candidates", by simp [hr, hc]⟩
  | some c =>
  cases hvf : fields.lookup "cache_version" with
  | none => exact ⟨.keyError "cache_version", by simp [hr, hc, hvf]⟩
  | some v =>
  have hb1 : (match pyIntOfJson v with
              | none => true
              | some n => n != CACHE_VERSION) = true := by
    unfold badVersionFieldB at hbad
    rw [hvf] at hbad
    exact hbad
  cases hi : pyIntOfJson v with
  | none =>
    exact ⟨.versionUnreadable,
      by simp [hr, hc, hvf, FolderCandidatesCache.check_version, hi]⟩
  | some n =>
    have hb2 : (n != CACHE_VERSION) = true := by rw [hi] at hb1; exact hb1
    have hne : n ≠ CACHE_VERSION := by simpa using hb2
    exact ⟨.versionMismatch n,
      by simp [hr, hc, hvf, FolderCandidatesCache.check_version, hi, hne]⟩

/-- C1 witness input: fresh existing file with a non-numeric version. -/
theorem load_bad_version_raises_witness :
    ∃ e, FolderCandidatesCache.load 1
      ⟨true, false, 0, .jobj [("cache_version", .jstr "foo")]⟩ = .error e :=
  load_bad_version_raises 1 _ [("cache_version", .jstr "foo")]
    rfl rfl (by norm_num) rfl (by decide)

/-- C2: an existing cache file whose age strictly exceeds the configured
maximum makes load() return absent, whatever the file content is — the
version gate is never reached. -/
theorem load_outdated_returns_none (maxDays : ℚ) (st : CacheFileState)
    (hp : st.present = true) (hsf : st.statFails = false)
    (hage : st.ageDays > maxDays) :
    FolderCandidatesCache.load maxDays st = .ok none := by
  unfold FolderCandidatesCache.load
  rw [hp]
  simp [FolderCandidatesCache.is_outdated, FolderCandidatesCache.get_age, hsf, hage]

/-- C2 witness input: a two-day-old file full of version garbage, max age
one day. -/
theorem load_outdated_returns_none_witness :
    FolderCandidatesCache.load 1
      ⟨true, false, 2, .jobj [("cache_version", .jstr "garbage")]⟩ = .ok none :=
  load_outdated_returns_none 1 _ rfl rfl (by norm_num)

/-- Converting a saved path list back from JSON recovers it, for canonical
paths. -/
theorem pathListOfJson_roundtrip (ps : List PyPath)
    (h : ∀ p ∈ ps, p.canonical) :
    FolderCandidatesCache.pathListOfJson (ps.map (fun p => .jstr p.str)) = .ok ps := by
  induction ps with
  | nil => rfl
  | cons p rest ih =>
    have hp : pyPathOfString p.str = p := h p (List.mem_cons_self p rest)
    have hrest := ih (fun q hq => h q (List.mem_cons_of_mem p hq))
    simp [FolderCandidatesCache.pathListOfJson, FolderCandidatesCache.pathOfJson,
      hp, hrest]

/-- Converting the saved candidates dict back from JSON recovers it, for
canonical paths. -/
theorem candidatesOfJson_go_roundtrip (l : List (String × List PyPath))
    (h : ∀ kv ∈ l, ∀ p ∈ kv.2, p.canonical) :
    FolderCandidatesCache.candidatesOfJson.go
      (l.map (fun kv => (kv.1, .jarr (kv.2.map (fun p => .jstr p.str))))) = .ok l := by
  induction l with
  | nil => rfl
  | cons kv rest ih =>
    have hkv := pathListOfJson_roundtrip kv.2 (h kv (List.mem_cons_self kv rest))
    have hrest := ih (fun e he => h e (List.mem_cons_of_mem kv he))
    simp [FolderCandidatesCache.candidatesOfJson.go, hkv, hrest]

/-- C3: saving a record whose version is the current constant and loading
it back while the file is fresh returns an equal record (paths restored
from their string form). -/
theorem cache_roundtrip (d : CacheData) (maxDays : ℚ) (st : CacheFileState)
    (hsf : st.statFails = false) (hage : st.ageDays ≤ maxDays)
    (hv : d.cache_version = .jint CACHE_VERSION)
    (hroot : d.root.canonical)
    (hpaths : ∀ kv ∈ d.candidates, ∀ p ∈ kv.2, p.canonical) :
    FolderCandidatesCache.load maxDays (FolderCandidatesCache.update st d) =
      .ok (some d) := by
  have hgo := candidatesOfJson_go_roundtrip d.candidates hpaths
  have hnot : FolderCandidatesCache.is_outdated maxDays
      (FolderCandidatesCache.update st d) = false := by
    simp [FolderCandidatesCache.is_outdated, FolderCandidatesCache.get_age,
      FolderCandidatesCache.update, hsf, not_lt.mpr hage]
  obtain ⟨root, cands, ver⟩ := d
  simp only [CacheData.cache_version] at hv
  subst hv
  have hroot' : pyPathOfString root.str = root := hroot
  simp only [CacheData.candidates] at hgo
  unfold FolderCandidatesCache.load
  rw [hnot]
  simp [FolderCandidatesCache.update, FolderCandidatesCache.writeJson,
    FolderCandidatesCache.read, List.lookup,
    FolderCandidatesCache.check_version, pyIntOfJson,
    FolderCandidatesCache.pathOfJson, hroot',
    FolderCandidatesCache.candidatesOfJson, hgo]

/-- The record of scenario D: candidates {"x": ["y"]}, current version. -/
def scenarioD : CacheData :=
  ⟨pyPathOfString "x", [("x", [pyPathOfString "y"])], .jint CACHE_VERSION⟩

/-- An initially empty cache-file state with age zero. -/
def emptyCacheState : CacheFileState := ⟨false, false, 0, .jnull⟩

/-- C3 witness input: scenario D — candidates {"x": ["y"]}, version 3,
saved then loaded with a fresh file. -/
theorem cache_roundtrip_witness :
    FolderCandidatesCache.load 1
      (FolderCandidatesCache.update emptyCacheState scenarioD) =
      .ok (some scenarioD) :=
  cache_roundtrip scenarioD 1 emptyCacheState rfl
    (by norm_num [emptyCacheState]) rfl (by decide) (by decide)

/-! ## The recursive folder classifier (recursive_update.py)

The filesystem is modelled as a listing tree: a node is either a
non-directory (also standing for nonexistent or unstatable paths, for which
is_dir() is false) or a directory with a readable flag (os.listdir raises
PermissionError on an unreadable directory) and its named entries. -/

/-- IGNORE_FILE marker name. -/
def IGNORE_FILE : String := ".recursive_rcs_update_ignore"

/-- IGNORE_FILE_NOGITPUSH marker name. -/
def IGNORE_FILE_NOGITPUSH : String := ".recursive_rcs_update_no-git-push"

/-- DIRS_TO_IGNORE denylist. -/
def DIRS_TO_IGNORE : List String := [".metadata", ".vs", "build", "target"]

/-- FolderCandidates dataclass. -/
structure FolderCandidates where
  git : List PyPath
  svn : List PyPath
  ignores : List PyPath
deriving DecidableEq

mutual
inductive FsTree where
  | file : FsTree
  | dir (readable : Bool) (entries : Entries) : FsTree
inductive Entries where
  | nil : Entries
  | cons (name : String) (child : FsTree) (rest : Entries) : Entries
end

/-- The listing of a directory node as a list of named entries. -/
def Entries.toList : Entries → List (String × FsTree)
  | .nil => []
  | .cons n c r => (n, c) :: r.toList

/-- Build a listing from a list of named entries. -/
def entriesOf : List (String × FsTree) → Entries
  | [] => .nil
  | (n, c) :: r => .cons n c (entriesOf r)

mutual
/-- Number of constructors of a tree; used as scan fuel (every recursive
scan call descends into a strict subtree, so this bounds the recursion). -/
def FsTree.size : FsTree → Nat
  | .file => 1
  | .dir _ es => es.esize + 1
def Entries.esize : Entries → Nat
  | .nil => 1
  | .cons _ c r => c.size + r.esize + 1
end

/-- How a scan can abort: PermissionError from os.listdir, or exhaustion of
the artificial fuel that makes the recursion structural
(scan_for_folder_candidates always supplies enough fuel). -/
inductive ScanErr where
  | permissionError
  | fuelExhausted
deriving DecidableEq

/-- Insert one entry into a name-sorted entry list. -/
def insertEntry (a : String × FsTree) :
    List (String × FsTree) → List (String × FsTree)
  | [] => [a]
  | b :: rest =>
    if strLeB a.1 b.1 then a :: b :: rest else b :: insertEntry a rest

/-- Python sorted() over the directory listing: a stable sort by code-point
order of the names (insertion sort computes the same list). -/
def sortEntries : List (String × FsTree) → List (String × FsTree)
  | [] => []
  | a :: rest => insertEntry a (sortEntries rest)

/-- The per-directory loop of __scan_for_folder_candidates_recursive over
the sorted listing: a non-directory entry is skipped; a denylisted name is
skipped entirely; an entry whose lowercased name is ".git" (resp. ".svn")
appends the current root to git (resp. svn) and aborts the remaining
iteration; any other subdirectory is scanned recursively through the
callback rec. -/
def scanLoopWith
    (rec : PyPath → FsTree → FolderCandidates → Except ScanErr FolderCandidates)
    (path : PyPath) :
    List (String × FsTree) → FolderCandidates → Except ScanErr FolderCandidates
  | [], acc => .ok acc
  | (name, child) :: rest, acc =>
    match child with
    | .file => scanLoopWith rec path rest acc
    | .dir r centries =>
      if name ∈ DIRS_TO_IGNORE then scanLoopWith rec path rest acc
      else if pyLower name = ".git" then .ok { acc with git := acc.git ++ [path] }
      else if pyLower name = ".svn" then .ok { acc with svn := acc.svn ++ [path] }
      else
        match rec (path.join name) (.dir r centries) acc with
        | .error e => .error e
        | .ok acc2 => scanLoopWith rec path rest acc2

/-- __scan_for_folder_candidates_recursive: a non-directory root stops the
recursion; listing an unreadable directory raises; the recursive-ignore
marker records the root in ignores and stops; the no-push marker stops
without recording; otherwise the sorted listing is processed by the loop. -/
def scanGo : Nat → PyPath → FsTree → FolderCandidates →
    Except ScanErr FolderCandidates
  | 0, _, _, _ => .error .fuelExhausted
  | fuel + 1, path, t, acc =>
    match t with
    | .file => .ok acc
    | .dir readable entries =>
      if readable = false then .error .permissionError
      else
        let names := entries.toList.map Prod.fst
        if IGNORE_FILE ∈ names then
          .ok { acc with ignores := acc.ignores ++ [path] }
        else if IGNORE_FILE_NOGITPUSH ∈ names then .ok acc
        else scanLoopWith (scanGo fuel) path (sortEntries entries.toList) acc

/-- scan_for_folder_candidates: run the recursion on an empty accumulator
(t.size is always enough fuel). -/
def scan_for_folder_candidates (root : PyPath) (t : FsTree) :
    Except ScanErr FolderCandidates :=
  scanGo t.size root t ⟨[], [], []⟩

/-- A well-formed listing tree: no directory lists the same name twice
(true of every real filesystem). -/
inductive FsTree.Wf : FsTree → Prop
  | file : Wf .file
  | dir (readable : Bool) (entries : Entries)
      (hnd : (entries.toList.map Prod.fst).Nodup)
      (hch : ∀ e ∈ entries.toList, Wf e.2) : Wf (.dir readable entries)

/-- The subtree of t at a position (chain of entry names), if any. -/
def subtreeAt : FsTree → List String → Option FsTree
  | t, [] => some t
  | .file, _ :: _ => none
  | .dir _ entries, n :: rest =>
    match entries.toList.lookup n with
    | none => none
    | some c => subtreeAt c rest

/-- The path of the directory sitting at a position below a root path. -/
def PyPath.extend (p : PyPath) (pos : List String) : PyPath :=
  { p with parts := p.parts ++ pos }

/-- Membership in any of the three result sequences. -/
def inCand (q : PyPath) (c : FolderCandidates) : Prop :=
  q ∈ c.git ∨ q ∈ c.svn ∨ q ∈ c.ignores

/-! ## Path order facts -/

theorem isAncestorOrEq_refl (p : PyPath) : isAncestorOrEq p p :=
  ⟨rfl, List.prefix_refl _⟩

theorem isAncestorOrEq_trans {p q r : PyPath} (h1 : isAncestorOrEq p q)
    (h2 : isAncestorOrEq q r) : isAncestorOrEq p r :=
  ⟨h1.1.trans h2.1, h1.2.trans h2.2⟩

theorem isAncestorOrEq_join (p : PyPath) (n : String) :
    isAncestorOrEq p (p.join n) :=
  ⟨rfl, List.prefix_append _ _⟩

theorem isAncestorOrEq_extend (p : PyPath) (pos : List String) :
    isAncestorOrEq p (p.extend pos) :=
  ⟨rfl, List.prefix_append _ _⟩

theorem extend_nil (p : PyPath) : p.extend [] = p := by
  simp [PyPath.extend]

theorem extend_cons (p : PyPath) (n : String) (pos : List String) :
    p.extend (n :: pos) = (p.join n).extend pos := by
  simp [PyPath.extend, PyPath.join]

theorem length_lt_of_join_le {p : PyPath} {n : String} {q : PyPath}
    (h : isAncestorOrEq (p.join n) q) : p.parts.length < q.parts.length := by
  have hl := h.2.length_le
  simp [PyPath.join] at hl
  omega

theorem not_le_root_of_join_le {p : PyPath} {n : String} {q : PyPath}
    (h : isAncestorOrEq (p.join n) q) : ¬ isAncestorOrEq q p := by
  intro h2
  have h1 := length_lt_of_join_le h
  have h3 := h2.2.length_le
  omega

theorem ne_root_of_join_le {p : PyPath} {n : String} {q : PyPath}
    (h : isAncestorOrEq (p.join n) q) : q ≠ p := by
  intro he
  exact not_le_root_of_join_le h (he ▸ isAncestorOrEq_refl q)

theorem sibling_disjoint {p : PyPath} {n m : String} (hnm : n ≠ m)
    {q1 q2 : PyPath} (h1 : isAncestorOrEq (p.join n) q1)
    (h2 : isAncestorOrEq (p.join m) q2) (h12 : isAncestorOrEq q1 q2) :
    False := by
  have ha : (p.join n).parts <+: q2.parts := h1.2.trans h12.2
  have hb : (p.join m).parts <+: q2.parts := h2.2
  have hlen : (p.join n).parts.length = (p.join m).parts.length := by
    simp [PyPath.join]
  have hpre : (p.join n).parts <+: (p.join m).parts :=
    List.prefix_of_prefix_length_le ha hb (le_of_eq hlen)
  have heq : (p.join n).parts = (p.join m).parts :=
    List.IsPrefix.eq_of_length hpre hlen
  simp [PyPath.join] at heq
  exact hnm heq

theorem isAncestorOrEq_iff_strict_or_eq (p q : PyPath) :
    isAncestorOrEq p q ↔ isStrictAncestor p q ∨ p = q := by
  constructor
  · rintro ⟨habs, hpre⟩
    by_cases he : p.parts = q.parts
    · right
      cases p; cases q
      simp_all
    · exact .inl ⟨habs, hpre, he⟩
  · rintro (⟨habs, hpre, _⟩ | rfl)
    · exact ⟨habs, hpre⟩
    · exact isAncestorOrEq_refl p

/-! ## Sorting facts -/

theorem insertEntry_perm (a : String × FsTree) (l : List (String × FsTree)) :
    List.Perm (insertEntry a l) (a :: l) := by
  induction l with
  | nil => exact List.Perm.refl _
  | cons b rest ih =>
    simp only [insertEntry]
    split
    · exact List.Perm.refl _
    · exact (ih.cons b).trans (List.Perm.swap a b rest)

theorem sortEntries_perm (l : List (String × FsTree)) :
    List.Perm (sortEntries l) l := by
  induction l with
  | nil => exact List.Perm.refl _
  | cons a rest ih =>
    exact (insertEntry_perm a (sortEntries rest)).trans (ih.cons a)

/-! ## Generic facts about the scan loop -/

/-- Anything in the loop result was already in the accumulator, is the
current root (recorded on a .git/.svn hit), or came out of the recursive
scan of one of the listed entries. -/
theorem scanLoop_new
    (rec : PyPath → FsTree → FolderCandidates → Except ScanErr FolderCandidates)
    (path : PyPath) (P : String × FsTree → PyPath → Prop) :
    ∀ l : List (String × FsTree),
    (∀ e ∈ l, ∀ acc2 res2, rec (path.join e.1) e.2 acc2 = .ok res2 →
      ∀ q, inCand q res2 → inCand q acc2 ∨ P e q) →
    ∀ acc res, scanLoopWith rec path l acc = .ok res →
    ∀ q, inCand q res → inCand q acc ∨ q = path ∨ ∃ e ∈ l, P e q := by
  intro l
  induction l with
  | nil =>
    intro _ acc res h q hq
    simp only [scanLoopWith] at h
    cases h
    exact .inl hq
  | cons e rest ih =>
    obtain ⟨name, child⟩ := e
    intro hrec acc res h q hq
    have hrecRest : ∀ e ∈ rest, ∀ acc2 res2,
        rec (path.join e.1) e.2 acc2 = .ok res2 →
        ∀ q, inCand q res2 → inCand q acc2 ∨ P e q :=
      fun e he => hrec e (List.mem_cons_of_mem _ he)
    cases child with
    | file =>
      have h' : scanLoopWith rec path rest acc = .ok res := h
      rcases ih hrecRest acc res h' q hq with h1 | h1 | ⟨e, he, hp⟩
      · exact .inl h1
      · exact .inr (.inl h1)
      · exact .inr (.inr ⟨e, List.mem_cons_of_mem _ he, hp⟩)
    | dir r centries =>
      by_cases hd : name ∈ DIRS_TO_IGNORE
      · have h' : scanLoopWith rec path rest acc = .ok res := by
          simpa [scanLoopWith, hd] using h
        rcases ih hrecRest acc res h' q hq with h1 | h1 | ⟨e, he, hp⟩
        · exact .inl h1
        · exact .inr (.inl h1)
        · exact .inr (.inr ⟨e, List.mem_cons_of_mem _ he, hp⟩)
      · by_cases hg : pyLower name = ".git"
        · have h' : res = { acc with git := acc.git ++ [path] } := by
            have := h
            simp [scanLoopWith, hd, hg] at this
            exact this.symm
          subst h'
          rcases hq with hq | hq | hq
          · rcases List.mem_append.mp hq with hq | hq
            · exact .inl (.inl hq)
            · exact .inr (.inl (List.mem_singleton.mp hq))
          · exact .inl (.inr (.inl hq))
          · exact .inl (.inr (.inr hq))
        · by_cases hs : pyLower name = ".svn"
          · have h' : res = { acc with svn := acc.svn ++ [path] } := by
              have := h
              simp [scanLoopWith, hd, hg, hs] at this
              exact this.symm
            subst h'
            rcases hq with hq | hq | hq
            · exact .inl (.inl hq)
            · rcases List.mem_append.mp hq with hq | hq
              · exact .inl (.inr (.inl hq))
              · exact .inr (.inl (List.mem_singleton.mp hq))
            · exact .inl (.inr (.inr hq))
          · have h' : (match rec (path.join name) (.dir r centries) acc with
                | .error e => (.error e : Except ScanErr FolderCandidates)
                | .ok acc2 => scanLoopWith rec path rest acc2) = .ok res := by
              simpa [scanLoopWith, hd, hg, hs] using h
            cases hcall : rec (path.join name) (.dir r centries) acc with
            | error e => rw [hcall] at h'; cases h'
            | ok acc2 =>
              rw [hcall] at h'
              rcases ih hrecRest acc2 res h' q hq with h1 | h1 | ⟨e, he, hp⟩
              · rcases hrec (name, .dir r centries) (List.mem_cons_self _ _)
                  acc acc2 hcall q h1 with h2 | h2
                · exact .inl h2
                · exact .inr (.inr ⟨(name, .dir r centries),
                    List.mem_cons_self _ _, h2⟩)
              · exact .inr (.inl h1)
              · exact .inr (.inr ⟨e, List.mem_cons_of_mem _ he, hp⟩)

/-! ## The separation invariant of the scan -/

inductive RecCat where
  | git
  | svn
  | ign
deriving DecidableEq

/-- Paths of the records of one category, in recording order. -/
def catPaths (c : RecCat) (recs : List (PyPath × RecCat)) : List PyPath :=
  (recs.filter (fun r => decide (r.2 = c))).map Prod.fst

theorem catPaths_append (c : RecCat) (l1 l2 : List (PyPath × RecCat)) :
    catPaths c (l1 ++ l2) = catPaths c l1 ++ catPaths c l2 := by
  simp [catPaths]

/-- The result extends the accumulator by a chronological list of records,
all at or below the scanned root, pairwise non-nested (no record is an
ancestor-or-equal of a later one). -/
def ScanRel (path : PyPath) (acc res : FolderCandidates) : Prop :=
  ∃ recs : List (PyPath × RecCat),
    res.git = acc.git ++ catPaths .git recs ∧
    res.svn = acc.svn ++ catPaths .svn recs ∧
    res.ignores = acc.ignores ++ catPaths .ign recs ∧
    (∀ r ∈ recs, isAncestorOrEq path r.1) ∧
    recs.Pairwise (fun a b => ¬ isAncestorOrEq a.1 b.1)

theorem scanLoop_records (fuel : Nat) (path : PyPath)
    (hIH : ∀ path2 t acc res, t.Wf → scanGo fuel path2 t acc = .ok res →
      ScanRel path2 acc res) :
    ∀ l : List (String × FsTree), (∀ e ∈ l, e.2.Wf) →
    (l.map Prod.fst).Nodup →
    ∀ acc res, scanLoopWith (scanGo fuel) path l acc = .ok res →
    ∃ recs : List (PyPath × RecCat),
      res.git = acc.git ++ catPaths .git recs ∧
      res.svn = acc.svn ++ catPaths .svn recs ∧
      res.ignores = acc.ignores ++ catPaths .ign recs ∧
      (∀ r ∈ recs, r.1 = path ∨ ∃ e ∈ l, isAncestorOrEq (path.join e.1) r.1) ∧
      recs.Pairwise (fun a b => ¬ isAncestorOrEq a.1 b.1) := by
  intro l
  induction l with
  | nil =>
    intro _ _ acc res h
    simp only [scanLoopWith] at h
    cases h
    exact ⟨[], by simp [catPaths], by simp [catPaths], by simp [catPaths],
      by simp, by simp⟩
  | cons e rest ih =>
    obtain ⟨name, child⟩ := e
    intro hwfl hnd acc res h
    have hwfr : ∀ e ∈ rest, e.2.Wf := fun e he => hwfl e (List.mem_cons_of_mem _ he)
    have hnd' : (name :: rest.map Prod.fst).Nodup := by simpa using hnd
    have hndr : (rest.map Prod.fst).Nodup := (List.nodup_cons.mp hnd').2
    have hname : name ∉ rest.map Prod.fst := (List.nodup_cons.mp hnd').1
    have weaken : ∀ recs : List (PyPath × RecCat),
        (∀ r ∈ recs, r.1 = path ∨ ∃ e ∈ rest, isAncestorOrEq (path.join e.1) r.1) →
        (∀ r ∈ recs, r.1 = path ∨
          ∃ e ∈ (name, child) :: rest, isAncestorOrEq (path.join e.1) r.1) := by
      intro recs hp r hr
      rcases hp r hr with h1 | ⟨e, he, hu⟩
      · exact .inl h1
      · exact .inr ⟨e, List.mem_cons_of_mem _ he, hu⟩
    cases child with
    | file =>
      obtain ⟨recs, e1, e2, e3, e4, e5⟩ := ih hwfr hndr acc res h
      exact ⟨recs, e1, e2, e3, weaken recs e4, e5⟩
    | dir r centries =>
      by_cases hd : name ∈ DIRS_TO_IGNORE
      · have h' : scanLoopWith (scanGo fuel) path rest acc = .ok res := by
          simpa [scanLoopWith, hd] using h
        obtain ⟨recs, e1, e2, e3, e4, e5⟩ := ih hwfr hndr acc res h'
        exact ⟨recs, e1, e2, e3, weaken recs e4, e5⟩
      · by_cases hg : pyLower name = ".git"
        · have h' : res = { acc with git := acc.git ++ [path] } := by
            have := h
            simp [scanLoopWith, hd, hg] at this
            exact this.symm
          subst h'
          refine ⟨[(path, .git)], by simp [catPaths], by simp [catPaths],
            by simp [catPaths], ?_, by simp⟩
          intro r2 hr2
          simp at hr2
          exact .inl (by rw [hr2])
        · by_cases hs : pyLower name = ".svn"
          · have h' : res = { acc with svn := acc.svn ++ [path] } := by
              have := h
              simp [scanLoopWith, hd, hg, hs] at this
              exact this.symm
            subst h'
            refine ⟨[(path, .svn)], by simp [catPaths], by simp [catPaths],
              by simp [catPaths], ?_, by simp⟩
            intro r2 hr2
            simp at hr2
            exact .inl (by rw [hr2])
          · have h' : (match scanGo fuel (path.join name) (.dir r centries) acc with
                | .error e => (.error e : Except ScanErr FolderCandidates)
                | .ok acc2 => scanLoopWith (scanGo fuel) path rest acc2) = .ok res := by
              simpa [scanLoopWith, hd, hg, hs] using h
            cases hcall : scanGo fuel (path.join name) (.dir r centries) acc with
            | error e => rw [hcall] at h'; cases h'
            | ok acc2 =>
              rw [hcall] at h'
              obtain ⟨recs1, a1, a2, a3, a4, a5⟩ :=
                hIH (path.join name) (.dir r centries) acc acc2
                  (hwfl (name, .dir r centries) (List.mem_cons_self _ _)) hcall
              obtain ⟨recs2, b1, b2, b3, b4, b5⟩ := ih hwfr hndr acc2 res h'
              refine ⟨recs1 ++ recs2, ?_, ?_, ?_, ?_, ?_⟩
              · rw [b1, a1, catPaths_append, List.append_assoc]
              · rw [b2, a2, catPaths_append, List.append_assoc]
              · rw [b3, a3, catPaths_append, List.append_assoc]
              · intro r2 hr2
                rcases List.mem_append.mp hr2 with hr2 | hr2
                · exact .inr ⟨(name, .dir r centries), List.mem_cons_self _ _,
                    a4 r2 hr2⟩
                · rcases b4 r2 hr2 with h1 | ⟨e, he, hu⟩
                  · exact .inl h1
                  · exact .inr ⟨e, List.mem_cons_of_mem _ he, hu⟩
              · rw [List.pairwise_append]
                refine ⟨a5, b5, ?_⟩
                intro x hx y hy
                have hxu : isAncestorOrEq (path.join name) x.1 := a4 x hx
                rcases b4 y hy with h1 | ⟨e, he, hu⟩
                · intro hxy
                  exact not_le_root_of_join_le hxu (h1 ▸ hxy)
                · intro hxy
                  have hne : name ≠ e.1 := by
                    intro heq
                    exact hname (heq ▸ List.mem_map_of_mem Prod.fst he)
                  exact sibling_disjoint hne hxu hu hxy

theorem scan_records : ∀ fuel path t acc res, t.Wf →
    scanGo fuel path t acc = .ok res → ScanRel path acc res := by
  intro fuel
  induction fuel with
  | zero => intro path t acc res _ h; simp [scanGo] at h
  | succ fuel ih =>
    intro path t acc res hwf h
    cases t with
    | file =>
      simp only [scanGo] at h
      cases h
      exact ⟨[], by simp [catPaths], by simp [catPaths], by simp [catPaths],
        by simp, by simp⟩
    | dir readable entries =>
      cases hwf with
      | dir _ _ hnd hch =>
        by_cases hr : readable = false
        · simp [scanGo, hr] at h
        · by_cases hig : IGNORE_FILE ∈ entries.toList.map Prod.fst
          · have h' : res = { acc with ignores := acc.ignores ++ [path] } := by
              have := h
              simp [scanGo, hr, hig] at this
              exact this.symm
            subst h'
            refine ⟨[(path, .ign)], by simp [catPaths], by simp [catPaths],
              by simp [catPaths], ?_, by simp⟩
            intro r2 hr2
            simp at hr2
            exact hr2 ▸ isAncestorOrEq_refl path
          · by_cases hnp : IGNORE_FILE_NOGITPUSH ∈ entries.toList.map Prod.fst
            · have h' : res = acc := by
                have := h
                simp [scanGo, hr, hig, hnp] at this
                exact this.symm
              subst h'
              exact ⟨[], by simp [catPaths], by simp [catPaths],
                by simp [catPaths], by simp, by simp⟩
            · have h' : scanLoopWith (scanGo fuel) path
                  (sortEntries entries.toList) acc = .ok res := by
                simpa [scanGo, hr, hig, hnp] using h
              have hwfs : ∀ e ∈ sortEntries entries.toList, e.2.Wf :=
                fun e he => hch e ((sortEntries_perm _).mem_iff.mp he)
              have hnds : ((sortEntries entries.toList).map Prod.fst).Nodup :=
                (((sortEntries_perm entries.toList).map Prod.fst).nodup_iff).mpr hnd
              obtain ⟨recs, e1, e2, e3, e4, e5⟩ :=
                scanLoop_records fuel path ih (sortEntries entries.toList)
                  hwfs hnds acc res h'
              refine ⟨recs, e1, e2, e3, ?_, e5⟩
              intro r2 hr2
              rcases e4 r2 hr2 with h1 | ⟨e, _, hu⟩
              · exact h1 ▸ isAncestorOrEq_refl path
              · exact isAncestorOrEq_trans (isAncestorOrEq_join path e.1) hu

/-! ## Decidable well-formedness certificates for concrete trees -/

def allSndB (f : FsTree → Bool) : List (String × FsTree) → Bool
  | [] => true
  | e :: rest => f e.2 && allSndB f rest

/-- Fuel-indexed well-formedness checker. -/
def wfB : Nat → FsTree → Bool
  | 0, _ => false
  | _ + 1, .file => true
  | fuel + 1, .dir _ es =>
    decide ((es.toList.map Prod.fst).Nodup) && allSndB (wfB fuel) es.toList

theorem allSndB_mem {f : FsTree → Bool} :
    ∀ {l : List (String × FsTree)}, allSndB f l = true → ∀ e ∈ l, f e.2 = true := by
  intro l
  induction l with
  | nil => intro _ e he; cases he
  | cons a rest ih =>
    intro h e he
    simp only [allSndB, Bool.and_eq_true] at h
    cases he with
    | head => exact h.1
    | tail _ he => exact ih h.2 e he

theorem wfB_sound : ∀ fuel t, wfB fuel t = true → t.Wf := by
  intro fuel
  induction fuel with
  | zero => intro t h; simp [wfB] at h
  | succ fuel ih =>
    intro t h
    cases t with
    | file => exact .file
    | dir r es =>
      simp only [wfB, Bool.and_eq_true, decide_eq_true_eq] at h
      exact .dir r es h.1 (fun e he => ih e.2 (allSndB_mem h.2 e he))

/-! ## Consequences of the separation invariant -/

theorem catPaths_subset {c : RecCat} {recs : List (PyPath × RecCat)} {q : PyPath}
    (h : q ∈ catPaths c recs) : ∃ r ∈ recs, r.1 = q := by
  unfold catPaths at h
  obtain ⟨r, hr, he⟩ := List.mem_map.mp h
  exact ⟨r, List.mem_of_mem_filter hr, he⟩

/-- Everything in the scan result was in the accumulator or sits at or
below the scanned root. -/
theorem scan_mem (fuel : Nat) (path : PyPath) (t : FsTree)
    (acc res : FolderCandidates) (hwf : t.Wf)
    (h : scanGo fuel path t acc = .ok res) :
    ∀ q, inCand q res → inCand q acc ∨ isAncestorOrEq path q := by
  obtain ⟨recs, e1, e2, e3, e4, _⟩ := scan_records fuel path t acc res hwf h
  intro q hq
  rcases hq with hq | hq | hq
  · rw [e1] at hq
    rcases List.mem_append.mp hq with hq | hq
    · exact .inl (.inl hq)
    · obtain ⟨r2, hr2, hq2⟩ := catPaths_subset hq
      exact .inr (hq2 ▸ e4 r2 hr2)
  · rw [e2] at hq
    rcases List.mem_append.mp hq with hq | hq
    · exact .inl (.inr (.inl hq))
    · obtain ⟨r2, hr2, hq2⟩ := catPaths_subset hq
      exact .inr (hq2 ▸ e4 r2 hr2)
  · rw [e3] at hq
    rcases List.mem_append.mp hq with hq | hq
    · exact .inl (.inr (.inr hq))
    · obtain ⟨r2, hr2, hq2⟩ := catPaths_subset hq
      exact .inr (hq2 ▸ e4 r2 hr2)

theorem catPaths_cons (c : RecCat) (p : PyPath) (c' : RecCat)
    (rest : List (PyPath × RecCat)) :
    catPaths c ((p, c') :: rest) =
      if c' = c then p :: catPaths c rest else catPaths c rest := by
  by_cases h : c' = c <;> simp [catPaths, h]

/-- The three category projections together are a permutation of all
recorded paths. -/
theorem catsplit_perm (recs : List (PyPath × RecCat)) :
    List.Perm
      (catPaths .git recs ++ catPaths .svn recs ++ catPaths .ign recs)
      (recs.map Prod.fst) := by
  induction recs with
  | nil => simp [catPaths]
  | cons a rest ih =>
    obtain ⟨p, c⟩ := a
    cases c with
    | git =>
      have e1 : catPaths .git ((p, .git) :: rest) = p :: catPaths .git rest := by
        simp [catPaths_cons]
      have e2 : catPaths .svn ((p, .git) :: rest) = catPaths .svn rest := by
        simp [catPaths_cons]
      have e3 : catPaths .ign ((p, .git) :: rest) = catPaths .ign rest := by
        simp [catPaths_cons]
      rw [e1, e2, e3, List.map_cons]
      exact ih.cons p
    | svn =>
      have e1 : catPaths .git ((p, .svn) :: rest) = catPaths .git rest := by
        simp [catPaths_cons]
      have e2 : catPaths .svn ((p, .svn) :: rest) = p :: catPaths .svn rest := by
        simp [catPaths_cons]
      have e3 : catPaths .ign ((p, .svn) :: rest) = catPaths .ign rest := by
        simp [catPaths_cons]
      rw [e1, e2, e3, List.map_cons]
      exact (List.Perm.append_right (catPaths .ign rest)
        List.perm_middle).trans (ih.cons p)
    | ign =>
      have e1 : catPaths .git ((p, .ign) :: rest) = catPaths .git rest := by
        simp [catPaths_cons]
      have e2 : catPaths .svn ((p, .ign) :: rest) = catPaths .svn rest := by
        simp [catPaths_cons]
      have e3 : catPaths .ign ((p, .ign) :: rest) = p :: catPaths .ign rest := by
        simp [catPaths_cons]
      rw [e1, e2, e3, List.map_cons]
      exact List.perm_middle.trans (ih.cons p)

theorem recs_paths_nodup {recs : List (PyPath × RecCat)}
    (h : recs.Pairwise (fun a b => ¬ isAncestorOrEq a.1 b.1)) :
    (recs.map Prod.fst).Nodup := by
  simp only [List.Nodup, List.pairwise_map]
  refine List.Pairwise.imp ?_ h
  intro a b hab he
  exact hab (by rw [he]; exact isAncestorOrEq_refl _)

theorem catPaths_pairwise {recs : List (PyPath × RecCat)} (c : RecCat)
    (h : recs.Pairwise (fun a b => ¬ isAncestorOrEq a.1 b.1)) :
    (catPaths c recs).Pairwise (fun p q => ¬ isAncestorOrEq p q) := by
  unfold catPaths
  rw [List.pairwise_map]
  exact (h.filter _)

/-! ## C4: the separation claim -/

/-- A directory whose listing holds a subdirectory "!a" (which is itself a
git working copy) and a .git marker; "!a" sorts before ".git". -/
def t4 : FsTree :=
  .dir true (entriesOf
    [("!a", .dir true (entriesOf [(".git", .dir true .nil)])),
     (".git", .dir true .nil)])

/-- C4 (counterexample): scanning t4 records the child root r/!a first and
then its strict ancestor r — both land in the git sequence, so the claimed
blanket non-ancestry invariant between recorded paths is false. -/
theorem scan_ancestor_counterexample :
    scan_for_folder_candidates (pyPathOfString "r") t4 =
      .ok ⟨[pyPathOfString "r/!a", pyPathOfString "r"], [], []⟩ ∧
    isStrictAncestor (pyPathOfString "r") (pyPathOfString "r/!a") :=
  ⟨rfl, by decide⟩

/-- C4 (amended): in every successful classification each directory path
appears at most once across the three sequences, and within each sequence
no path is an ancestor-or-equal of a later-recorded path (descendants are
always recorded before ancestors; nothing below an already-recorded
directory is recorded afterwards).  The blanket claim that no recorded path
is a strict ancestor of any other recorded path fails (see the
counterexample). -/
theorem scan_separation (root : PyPath) (t : FsTree) (res : FolderCandidates)
    (hwf : t.Wf) (h : scan_for_folder_candidates root t = .ok res) :
    (res.git ++ res.svn ++ res.ignores).Nodup ∧
    res.git.Pairwise (fun p q => ¬ isAncestorOrEq p q) ∧
    res.svn.Pairwise (fun p q => ¬ isAncestorOrEq p q) ∧
    res.ignores.Pairwise (fun p q => ¬ isAncestorOrEq p q) := by
  obtain ⟨recs, e1, e2, e3, _, e5⟩ :=
    scan_records t.size root t ⟨[], [], []⟩ res hwf h
  simp only [List.nil_append] at e1 e2 e3
  rw [e1, e2, e3]
  exact ⟨((catsplit_perm recs).nodup_iff).mpr (recs_paths_nodup e5),
    catPaths_pairwise .git e5, catPaths_pairwise .svn e5,
    catPaths_pairwise .ign e5⟩

/-- C4 witness input: the amended separation facts at the counterexample
tree. -/
theorem scan_separation_witness :
    (([pyPathOfString "r/!a", pyPathOfString "r"] ++ [] ++ []) :
        List PyPath).Nodup ∧
    ([pyPathOfString "r/!a", pyPathOfString "r"] :
        List PyPath).Pairwise (fun p q => ¬ isAncestorOrEq p q) ∧
    (([] : List PyPath)).Pairwise (fun p q => ¬ isAncestorOrEq p q) ∧
    (([] : List PyPath)).Pairwise (fun p q => ¬ isAncestorOrEq p q) :=
  scan_separation (pyPathOfString "r") t4
    ⟨[pyPathOfString "r/!a", pyPathOfString "r"], [], []⟩
    (wfB_sound t4.size t4 (by decide)) rfl

/-! ## Subtrees with stopping markers -/

theorem isAncestorOrEq_of_strict {p q : PyPath} (h : isStrictAncestor p q) :
    isAncestorOrEq p q :=
  ⟨h.1, h.2.1⟩

theorem not_strict_self (p : PyPath) : ¬ isStrictAncestor p p :=
  fun h => h.2.2 rfl

theorem not_strict_of_longer {p : PyPath} {n : String} {pos : List String} :
    ¬ isStrictAncestor (p.extend (n :: pos)) p := by
  intro h
  have hl := h.2.1.length_le
  simp [PyPath.extend, List.length_append] at hl

theorem extend_cons_ne_root (p : PyPath) (n : String) (pos : List String) :
    p ≠ p.extend (n :: pos) := by
  intro he
  have h1 : p.parts = p.parts ++ n :: pos := congrArg PyPath.parts he
  have hl := congrArg List.length h1
  simp at hl

theorem lookup_mem : ∀ {l : List (String × FsTree)} {n : String} {c : FsTree},
    l.lookup n = some c → (n, c) ∈ l := by
  intro l
  induction l with
  | nil => intro n c h; simp [List.lookup] at h
  | cons a rest ih =>
    intro n c h
    obtain ⟨k, d⟩ := a
    simp only [List.lookup] at h
    by_cases hk : n == k
    · rw [hk] at h
      cases h
      have : n = k := by simpa using hk
      subst this
      exact List.mem_cons_self _ _
    · rw [Bool.not_eq_true] at hk
      rw [hk] at h
      exact List.mem_cons_of_mem _ (ih h)

theorem lookup_unique : ∀ (l : List (String × FsTree)),
    (l.map Prod.fst).Nodup → ∀ {n : String} {c : FsTree},
    l.lookup n = some c → ∀ e ∈ l, e.1 = n → e.2 = c := by
  intro l
  induction l with
  | nil => intro _ n c h; simp [List.lookup] at h
  | cons a rest ih =>
    intro hnd n c hl e he hen
    obtain ⟨k, d⟩ := a
    have hnd' : (k :: rest.map Prod.fst).Nodup := by simpa using hnd
    simp only [List.lookup] at hl
    by_cases hk : n == k
    · rw [hk] at hl
      cases hl
      have hkn : n = k := by simpa using hk
      cases he with
      | head => exact rfl
      | tail _ he =>
        exfalso
        have : e.1 ∈ rest.map Prod.fst := List.mem_map_of_mem Prod.fst he
        rw [hen, hkn] at this
        exact (List.nodup_cons.mp hnd').1 this
    · rw [Bool.not_eq_true] at hk
      rw [hk] at hl
      cases he with
      | head =>
        exfalso
        have : n = k := hen.symm ▸ rfl
        simp [this] at hk
      | tail _ he =>
        exact ih (List.nodup_cons.mp hnd').2 hl e he hen

/-- Nothing recorded by a scan sits strictly below a directory that carries
a stopping marker (recursive-ignore or no-push); and if the marker is the
no-push one (without recursive-ignore), the marked directory itself is not
recorded either. -/
theorem scan_stop : ∀ fuel path (t : FsTree) (pos : List String)
    (r2 : Bool) (es2 : Entries), t.Wf →
    subtreeAt t pos = some (.dir r2 es2) →
    (IGNORE_FILE ∈ es2.toList.map Prod.fst ∨
      IGNORE_FILE_NOGITPUSH ∈ es2.toList.map Prod.fst) →
    ∀ acc res, scanGo fuel path t acc = .ok res →
    ∀ q, inCand q res → inCand q acc ∨
      (¬ isStrictAncestor (path.extend pos) q ∧
        (IGNORE_FILE ∉ es2.toList.map Prod.fst → q ≠ path.extend pos)) := by
  intro fuel
  induction fuel with
  | zero => intro path t pos r2 es2 _ _ _ acc res h; simp [scanGo] at h
  | succ fuel ih =>
    intro path t pos r2 es2 hwf hsub hmark acc res h q hq
    cases t with
    | file =>
      simp only [scanGo] at h
      cases h
      exact .inl hq
    | dir readable entries =>
      cases hwf with
      | dir _ _ hnd hch =>
      by_cases hr : readable = false
      · simp [scanGo, hr] at h
      · by_cases hig : IGNORE_FILE ∈ entries.toList.map Prod.fst
        · have h' : res = { acc with ignores := acc.ignores ++ [path] } := by
            have := h
            simp [scanGo, hr, hig] at this
            exact this.symm
          subst h'
          have hq' : inCand q acc ∨ q = path := by
            rcases hq with hq | hq | hq
            · exact .inl (.inl hq)
            · exact .inl (.inr (.inl hq))
            · rcases List.mem_append.mp hq with hq | hq
              · exact .inl (.inr (.inr hq))
              · exact .inr (List.mem_singleton.mp hq)
          rcases hq' with hq' | hqp
          · exact .inl hq'
          · subst q
            right
            cases pos with
            | nil =>
              simp only [subtreeAt, Option.some.injEq] at hsub
              obtain ⟨_, h2⟩ := FsTree.dir.inj hsub
              refine ⟨by rw [extend_nil]; exact not_strict_self path, ?_⟩
              intro hno
              rw [← h2] at hno
              exact absurd hig hno
            | cons n pos' =>
              exact ⟨not_strict_of_longer,
                fun _ he => extend_cons_ne_root path n pos' he⟩
        · by_cases hnp : IGNORE_FILE_NOGITPUSH ∈ entries.toList.map Prod.fst
          · have h' : res = acc := by
              have := h
              simp [scanGo, hr, hig, hnp] at this
              exact this.symm
            subst h'
            exact .inl hq
          · cases pos with
            | nil =>
              exfalso
              simp only [subtreeAt, Option.some.injEq] at hsub
              obtain ⟨_, h2⟩ := FsTree.dir.inj hsub
              rw [← h2] at hmark
              rcases hmark with hm | hm
              · exact hig hm
              · exact hnp hm
            | cons n pos' =>
              have hsub' := hsub
              simp only [subtreeAt] at hsub'
              cases hlk : entries.toList.lookup n with
              | none => rw [hlk] at hsub'; cases hsub'
              | some c =>
                rw [hlk] at hsub'
                have h' : scanLoopWith (scanGo fuel) path
                    (sortEntries entries.toList) acc = .ok res := by
                  simpa [scanGo, hr, hig, hnp] using h
                have hrec : ∀ e ∈ sortEntries entries.toList, ∀ acc2 res2,
                    scanGo fuel (path.join e.1) e.2 acc2 = .ok res2 →
                    ∀ q2, inCand q2 res2 → inCand q2 acc2 ∨
                      ((e.1 = n ∧
                        ¬ isStrictAncestor (path.extend (n :: pos')) q2 ∧
                        (IGNORE_FILE ∉ es2.toList.map Prod.fst →
                          q2 ≠ path.extend (n :: pos'))) ∨
                       (e.1 ≠ n ∧ isAncestorOrEq (path.join e.1) q2)) := by
                  intro e he acc2 res2 hcall q2 hq2
                  have heMem : e ∈ entries.toList :=
                    (sortEntries_perm _).mem_iff.mp he
                  have hewf : e.2.Wf := hch e heMem
                  by_cases hen : e.1 = n
                  · have he2 : e.2 = c :=
                      lookup_unique entries.toList hnd hlk e heMem hen
                    rcases ih (path.join e.1) e.2 pos' r2 es2 hewf
                        (by rw [he2]; exact hsub') hmark acc2 res2 hcall q2 hq2
                      with h1 | ⟨hstr, hne⟩
                    · exact .inl h1
                    · right; left
                      refine ⟨hen, ?_, ?_⟩
                      · rw [extend_cons, ← hen]
                        exact hstr
                      · intro hno he3
                        exact hne hno (by rw [he3, extend_cons, ← hen])
                  · rcases scan_mem fuel (path.join e.1) e.2 acc2 res2 hewf
                        hcall q2 hq2 with h1 | h1
                    · exact .inl h1
                    · exact .inr (.inr ⟨hen, h1⟩)
                rcases scanLoop_new (scanGo fuel) path _
                    (sortEntries entries.toList) hrec acc res h' q hq
                  with h1 | hqp | ⟨e, _, hp⟩
                · exact .inl h1
                · subst q
                  right
                  exact ⟨not_strict_of_longer,
                    fun _ he => extend_cons_ne_root path n pos' he⟩
                · rcases hp with ⟨_, hstr, hne⟩ | ⟨hen, hu⟩
                  · exact .inr ⟨hstr, hne⟩
                  · right
                    have hnu : isAncestorOrEq (path.join n)
                        (path.extend (n :: pos')) := by
                      rw [extend_cons]
                      exact isAncestorOrEq_extend _ _
                    constructor
                    · intro hstr2
                      exact sibling_disjoint hen hu
                        (isAncestorOrEq_trans hnu (isAncestorOrEq_of_strict hstr2))
                        (isAncestorOrEq_refl q)
                    · intro _ he2
                      rw [he2] at hu
                      exact sibling_disjoint hen hu hnu
                        (isAncestorOrEq_refl (path.extend (n :: pos')))

/-! ## C5, C6, C7: marker and robustness claims -/

/-- A root carrying the recursive-ignore marker with a marker-carrying
subdirectory "a" below it. -/
def t5 : FsTree :=
  .dir true (entriesOf
    [(IGNORE_FILE, .file),
     ("a", .dir true (entriesOf [(IGNORE_FILE, .file)]))])

/-- C5 (counterexample): the root of t5 carries the recursive-ignore marker
and so does its subdirectory "a" at depth 1; classification records only
the root in ignores — the marker directory "a" is not recorded, refuting
"records that directory itself" for every marker directory of the tree. -/
theorem scan_nested_ignore_counterexample :
    subtreeAt t5 ["a"] = some (.dir true (entriesOf [(IGNORE_FILE, .file)])) ∧
    IGNORE_FILE ∈ (entriesOf [(IGNORE_FILE, .file)]).toList.map Prod.fst ∧
    scan_for_folder_candidates (pyPathOfString "r") t5 =
      .ok ⟨[], [], [pyPathOfString "r"]⟩ ∧
    (pyPathOfString "r").join "a" ∉ ([pyPathOfString "r"] : List PyPath) :=
  ⟨rfl, by decide, rfl, by decide⟩

/-- C5 (amended): a directory the scan visits whose listing contains the
recursive-ignore marker is recorded in ignores and the scan does not
descend below it; and in every successful classification no directory
strictly below a marker-carrying directory — visited or not — appears in
any of the three sequences.  (The marker directory itself is recorded only
when the walk reaches it; a marker directory nested below another stopping
marker is not recorded: see the counterexample.) -/
theorem ignore_marker_stops :
    (∀ fuel path (es : Entries) acc,
      IGNORE_FILE ∈ es.toList.map Prod.fst →
      scanGo (fuel + 1) path (.dir true es) acc =
        .ok { acc with ignores := acc.ignores ++ [path] }) ∧
    (∀ root (t : FsTree) pos (r2 : Bool) (es2 : Entries) res, t.Wf →
      subtreeAt t pos = some (.dir r2 es2) →
      IGNORE_FILE ∈ es2.toList.map Prod.fst →
      scan_for_folder_candidates root t = .ok res →
      ∀ q, inCand q res → ¬ isStrictAncestor (root.extend pos) q) := by
  constructor
  · intro fuel path es acc hmem
    simp [scanGo, hmem]
  · intro root t pos r2 es2 res hwf hsub hmem h q hq
    rcases scan_stop t.size root t pos r2 es2 hwf hsub (.inl hmem)
        ⟨[], [], []⟩ res h q hq with h1 | ⟨hstr, _⟩
    · rcases h1 with h1 | h1 | h1 <;> cases h1
    · exact hstr

/-- A tree with a repository "repo" and a sibling "x" carrying the
recursive-ignore marker above a nested repository. -/
def t5w : FsTree :=
  .dir true (entriesOf
    [("repo", .dir true (entriesOf [(".git", .dir true .nil)])),
     ("x", .dir true (entriesOf
        [(IGNORE_FILE, .file),
         ("g", .dir true (entriesOf [(".git", .dir true .nil)]))]))])

/-- C5 witness input: the visited-marker equation at a one-entry listing,
and non-ancestry of the ignored subtree over the recorded repository. -/
theorem ignore_marker_stops_witness :
    scanGo 1 (pyPathOfString "r")
      (.dir true (entriesOf [(IGNORE_FILE, .file)])) ⟨[], [], []⟩ =
      .ok ⟨[], [], [pyPathOfString "r"]⟩ ∧
    ¬ isStrictAncestor ((pyPathOfString "r").extend ["x"])
      ((pyPathOfString "r").join "repo") :=
  ⟨ignore_marker_stops.1 0 (pyPathOfString "r")
      (entriesOf [(IGNORE_FILE, .file)]) ⟨[], [], []⟩ (by decide),
   ignore_marker_stops.2 (pyPathOfString "r") t5w ["x"] true
      (entriesOf
        [(IGNORE_FILE, .file),
         ("g", .dir true (entriesOf [(".git", .dir true .nil)]))])
      ⟨[pyPathOfString "r/repo"], [], [pyPathOfString "r/x"]⟩
      (wfB_sound t5w.size t5w (by decide)) rfl (by decide) rfl
      ((pyPathOfString "r").join "repo") (.inl (by decide))⟩

/-- C6 (counterexample): scanning a root that is an unreadable directory
raises PermissionError (propagated from os.listdir) rather than returning
the empty classification, refuting "never fails on an inaccessible root". -/
theorem scan_unreadable_counterexample :
    scan_for_folder_candidates (pyPathOfString "r") (.dir false .nil) =
      .error .permissionError ∧
    (Except.error .permissionError :
      Except ScanErr FolderCandidates) ≠ .ok ⟨[], [], []⟩ :=
  ⟨rfl, fun h => Except.noConfusion h⟩

/-- C6 (amended): a nonexistent or non-directory root (is_dir() false)
yields the empty classification, but an existing directory root whose
listing is permission-denied makes the scan raise instead of returning
empty. -/
theorem scan_root_robustness :
    (∀ p, scan_for_folder_candidates p .file = .ok ⟨[], [], []⟩) ∧
    (∀ p (es : Entries), scan_for_folder_candidates p (.dir false es) =
      .error .permissionError) := by
  constructor
  · intro p
    rfl
  · intro p es
    show scanGo (es.esize + 1) p (.dir false es) ⟨[], [], []⟩ =
      .error .permissionError
    simp [scanGo]

/-- A tree with a repository "repo" and a sibling "x" carrying the no-push
marker above a nested repository. -/
def t7w : FsTree :=
  .dir true (entriesOf
    [("repo", .dir true (entriesOf [(".git", .dir true .nil)])),
     ("x", .dir true (entriesOf
        [(IGNORE_FILE_NOGITPUSH, .file),
         ("g", .dir true (entriesOf [(".git", .dir true .nil)]))]))])

/-- C7: a directory whose listing contains the no-push marker but not the
recursive-ignore marker contributes nothing when visited (the scan of it
returns the accumulator unchanged), and in every successful classification
neither that directory nor any directory strictly below it appears in any
of the three sequences. -/
theorem nopush_marker_stops :
    (∀ fuel path (es : Entries) acc,
      IGNORE_FILE_NOGITPUSH ∈ es.toList.map Prod.fst →
      IGNORE_FILE ∉ es.toList.map Prod.fst →
      scanGo (fuel + 1) path (.dir true es) acc = .ok acc) ∧
    (∀ root (t : FsTree) pos (r2 : Bool) (es2 : Entries) res, t.Wf →
      subtreeAt t pos = some (.dir r2 es2) →
      IGNORE_FILE_NOGITPUSH ∈ es2.toList.map Prod.fst →
      IGNORE_FILE ∉ es2.toList.map Prod.fst →
      scan_for_folder_candidates root t = .ok res →
      ∀ q, inCand q res → ¬ isAncestorOrEq (root.extend pos) q) := by
  constructor
  · intro fuel path es acc hnp hig
    simp [scanGo, hig, hnp]
  · intro root t pos r2 es2 res hwf hsub hnp hig h q hq
    rcases scan_stop t.size root t pos r2 es2 hwf hsub (.inr hnp)
        ⟨[], [], []⟩ res h q hq with h1 | ⟨hstr, hne⟩
    · rcases h1 with h1 | h1 | h1 <;> cases h1
    · intro hae
      rcases (isAncestorOrEq_iff_strict_or_eq _ _).mp hae with hst | heq
      · exact hstr hst
      · exact hne hig heq.symm

/-- C7 witness input: the no-push frame equation at a one-entry listing,
and non-ancestry of the no-push subtree over the recorded repository. -/
theorem nopush_marker_stops_witness :
    scanGo 1 (pyPathOfString "r")
      (.dir true (entriesOf [(IGNORE_FILE_NOGITPUSH, .file)])) ⟨[], [], []⟩ =
      .ok ⟨[], [], []⟩ ∧
    ¬ isAncestorOrEq ((pyPathOfString "r").extend ["x"])
      ((pyPathOfString "r").join "repo") :=
  ⟨nopush_marker_stops.1 0 (pyPathOfString "r")
      (entriesOf [(IGNORE_FILE_NOGITPUSH, .file)]) ⟨[], [], []⟩
      (by decide) (by decide),
   nopush_marker_stops.2 (pyPathOfString "r") t7w ["x"] true
      (entriesOf
        [(IGNORE_FILE_NOGITPUSH, .file),
         ("g", .dir true (entriesOf [(".git", .dir true .nil)]))])
      ⟨[pyPathOfString "r/repo"], [], []⟩
      (wfB_sound t7w.size t7w (by decide)) rfl (by decide) (by decide) rfl
      ((pyPathOfString "r").join "repo") (.inl (by decide))⟩

/-! ## setup_cache (recursive_update.py) -/

inductive SetupErr where
  | loadError (e : PyErr)
  | scanError (e : ScanErr)
  | rootMismatch
deriving DecidableEq

/-- What setup_cache returns: the candidates, plus the record handed to
cache.update when a rescan happened (none when the cached data was used). -/
structure SetupResult where
  candidates : FolderCandidates
  wrote : Option CacheData

/-- The dict that asdict() produces from a FolderCandidates dataclass. -/
def candidatesDict (c : FolderCandidates) : List (String × List PyPath) :=
  [("git", c.git), ("svn", c.svn), ("ignores", c.ignores)]

/-- setup_cache: load the cache; when there is no (fresh) cached record,
scan and write a new record with the default schema version; on a cache
hit, use the cached candidates with empty-list defaults for missing keys
if the recorded root matches, and raise RuntimeWarning otherwise.
Exceptions from load and from the scan propagate. -/
def setup_cache (basepath : PyPath) (cache_max_age : ℚ)
    (st : CacheFileState) (tree : FsTree) : Except SetupErr SetupResult :=
  match FolderCandidatesCache.load cache_max_age st with
  | .error e => .error (.loadError e)
  | .ok none =>
    match scan_for_folder_candidates basepath tree with
    | .error e => .error (.scanError e)
    | .ok cands =>
      .ok ⟨cands, some ⟨basepath, candidatesDict cands, .jint CACHE_VERSION⟩⟩
  | .ok (some data) =>
    if data.root = basepath then
      .ok ⟨⟨(data.candidates.lookup "git").getD [],
            (data.candidates.lookup "svn").getD [],
            (data.candidates.lookup "ignores").getD []⟩, none⟩
    else .error .rootMismatch

/-- C8: when load() yields a record, a root different from the requested
base path is a fatal error whatever the directory tree looks like (no
fallback rescan); a matching root uses the cached candidates without
rescanning — the result is independent of the tree and nothing is
written. -/
theorem setup_cache_root_check (basepath : PyPath) (maxAge : ℚ)
    (st : CacheFileState) (d : CacheData)
    (h : FolderCandidatesCache.load maxAge st = .ok (some d)) :
    (d.root ≠ basepath → ∀ tree,
      setup_cache basepath maxAge st tree = .error .rootMismatch) ∧
    (d.root = basepath → ∀ tree,
      setup_cache basepath maxAge st tree =
        .ok ⟨⟨(d.candidates.lookup "git").getD [],
              (d.candidates.lookup "svn").getD [],
              (d.candidates.lookup "ignores").getD []⟩, none⟩) := by
  constructor
  · intro hne tree
    simp [setup_cache, h, hne]
  · intro heq tree
    simp [setup_cache, h, heq]

/-- A fresh valid cache file recording root "b" with an empty candidates
dict. -/
def stRootB : CacheFileState :=
  ⟨true, false, 0, .jobj [("root", .jstr "b"), ("candidates", .jobj []),
    ("cache_version", .jint 3)]⟩

/-- C8 witness input: the cached root "b" against base paths "c"
(mismatch, fatal) and "b" (hit, no write). -/
theorem setup_cache_root_check_witness :
    setup_cache (pyPathOfString "c") 1 stRootB .file = .error .rootMismatch ∧
    setup_cache (pyPathOfString "b") 1 stRootB .file =
      .ok ⟨⟨[], [], []⟩, none⟩ :=
  ⟨(setup_cache_root_check (pyPathOfString "c") 1 stRootB
      ⟨pyPathOfString "b", [], .jint 3⟩ rfl).1 (by decide) .file,
   (setup_cache_root_check (pyPathOfString "b") 1 stRootB
      ⟨pyPathOfString "b", [], .jint 3⟩ rfl).2 rfl .file⟩

/-- C10: an accepted cache record whose candidates dict lacks some of the
keys "git", "svn", "ignores" yields an empty list for each missing key
rather than an error. -/
theorem setup_cache_missing_keys (basepath : PyPath) (maxAge : ℚ)
    (st : CacheFileState) (d : CacheData) (tree : FsTree)
    (h : FolderCandidatesCache.load maxAge st = .ok (some d))
    (hroot : d.root = basepath) :
    ∃ r, setup_cache basepath maxAge st tree = .ok r ∧ r.wrote = none ∧
      (d.candidates.lookup "git" = none → r.candidates.git = []) ∧
      (d.candidates.lookup "svn" = none → r.candidates.svn = []) ∧
      (d.candidates.lookup "ignores" = none → r.candidates.ignores = []) := by
  refine ⟨⟨⟨(d.candidates.lookup "git").getD [],
            (d.candidates.lookup "svn").getD [],
            (d.candidates.lookup "ignores").getD []⟩, none⟩,
    by simp [setup_cache, h, hroot], rfl, ?_, ?_, ?_⟩ <;>
  · intro hnone
    simp [hnone]

/-- C10 witness input: a record with an empty candidates dict — all three
keys missing, all three lists empty. -/
theorem setup_cache_missing_keys_witness :
    ∃ r, setup_cache (pyPathOfString "b") 1 stRootB .file = .ok r ∧
      r.wrote = none ∧
      ((([] : List (String × List PyPath)).lookup "git") = none →
        r.candidates.git = []) ∧
      ((([] : List (String × List PyPath)).lookup "svn") = none →
        r.candidates.svn = []) ∧
      ((([] : List (String × List PyPath)).lookup "ignores") = none →
        r.candidates.ignores = []) :=
  setup_cache_missing_keys (pyPathOfString "b") 1 stRootB
    ⟨pyPathOfString "b", [], .jint 3⟩ .file rfl rfl

/-! ## run_git (recursive_update.py, run()) -/

/-- The external world run_git works against during one run: the directory
check, the check_git_pullpush query (pull possible, push possible, origin
push URL), and the exit status of run_command per folder and command
line — all functions of the folder, as one deterministic run sees them. -/
structure GitEnv where
  isDir : PyPath → Bool
  pullPossible : PyPath → Bool
  pushPossible : PyPath → Bool
  pushUrl : PyPath → String
  runCmd : PyPath → String → Int

/-- The pull command line. -/
def GIT_PULL_CMD : String := "git pull --recurse-submodules --all"

/-- The push command line. -/
def GIT_PUSH_CMD : String := "git push --all"

/-- The pull failure message (f-string with the pull return code). -/
def pullErrMsg (rc : Int) : String :=
  "git pull error! (return code: " ++ toString rc ++ ")"

/-- The push failure message; the source interpolates returncode_pull
here, not returncode_push. -/
def pushErrMsg (rcPull : Int) : String :=
  "git push error! (return code: " ++ toString rcPull ++ ")"

/-- OrderedDict assignment d[k] = v: overwrite the value in place when the
key exists, append otherwise. -/
def odSet (d : List (PyPath × String)) (k : PyPath) (v : String) :
    List (PyPath × String) :=
  if d.any (fun kv => decide (kv.1 = k)) then
    d.map (fun kv => if kv.1 = k then (k, v) else kv)
  else d ++ [(k, v)]

/-- The observable state threaded by run_git: the ok and error result
dicts, whether cache.invalidate() was called, and the chronological trace
of run_command invocations. -/
structure RunGitState where
  okRes : List (PyPath × String)
  errRes : List (PyPath × String)
  invalidated : Bool
  cmds : List (PyPath × String)

/-- One iteration of run_git's loop: a vanished directory invalidates the
cache and moves on; an impossible pull records an error; otherwise git pull
runs, a zero exit records ok and — when pushing is enabled, possible, and
the push URL is not a github.com one — git push runs and its status is
recorded; a nonzero pull records an error and aborts this folder. -/
def runGitStep (env : GitEnv) (git_do_push : Bool) (st : RunGitState)
    (folder : PyPath) : RunGitState :=
  if env.isDir folder = false then { st with invalidated := true }
  else if env.pullPossible folder = false then
    { st with errRes := odSet st.errRes folder "no git pull possible" }
  else
    let st1 := { st with cmds := st.cmds ++ [(folder, GIT_PULL_CMD)] }
    let rcPull := env.runCmd folder GIT_PULL_CMD
    if rcPull = 0 then
      let st2 := { st1 with okRes := odSet st1.okRes folder "git pull OK" }
      if git_do_push && env.pushPossible folder then
        if strContainsB (env.pushUrl folder) "github.com" then st2
        else
          let st3 := { st2 with cmds := st2.cmds ++ [(folder, GIT_PUSH_CMD)] }
          let rcPush := env.runCmd folder GIT_PUSH_CMD
          if rcPush = 0 then
            { st3 with okRes := odSet st3.okRes folder "git pull + push OK" }
          else
            { st3 with
              errRes := odSet st3.errRes folder (pushErrMsg rcPull),
              okRes := odSet st3.okRes folder "git pull OK, push ERROR" }
      else st2
    else
      { st1 with errRes := odSet st1.errRes folder (pullErrMsg rcPull) }

/-- run_git over the list of git folder candidates. -/
def run_git (env : GitEnv) (git_do_push : Bool) (folders : List PyPath) :
    RunGitState :=
  folders.foldl (runGitStep env git_do_push) ⟨[], [], false, []⟩

theorem odSet_mem_self (d : List (PyPath × String)) (k : PyPath) (v : String) :
    (k, v) ∈ odSet d k v := by
  unfold odSet
  split
  · next hany =>
    obtain ⟨kv, hkv, he⟩ := List.any_eq_true.mp hany
    refine List.mem_map.mpr ⟨kv, hkv, ?_⟩
    simp at he
    simp [he]
  · exact List.mem_append.mpr (.inr (List.mem_singleton.mpr rfl))

theorem odSet_mem_preserve {d : List (PyPath × String)} {k : PyPath}
    {v : String} (k2 : PyPath) (v2 : String) (h : (k, v) ∈ d)
    (hcase : k2 ≠ k ∨ v2 = v) : (k, v) ∈ odSet d k2 v2 := by
  unfold odSet
  split
  · refine List.mem_map.mpr ⟨(k, v), h, ?_⟩
    by_cases hk : k = k2
    · rcases hcase with hne | hv
      · exact absurd hk.symm hne
      · simp [hk, hv]
    · simp [hk]
  · exact List.mem_append.mpr (.inl h)

/-- The command trace only grows. -/
theorem step_cmds_mono (env : GitEnv) (push : Bool) (st : RunGitState)
    (b : PyPath) {x : PyPath × String} (h : x ∈ st.cmds) :
    x ∈ (runGitStep env push st b).cmds := by
  unfold runGitStep
  dsimp only
  repeat' split
  all_goals simp [List.mem_append, h]

/-- Invariance of a state predicate under the whole fold. -/
theorem foldl_inv (env : GitEnv) (push : Bool) (P : RunGitState → Prop)
    (hstep : ∀ st b, P st → P (runGitStep env push st b)) :
    ∀ (l : List PyPath) (st : RunGitState), P st →
      P (l.foldl (runGitStep env push) st) := by
  intro l
  induction l with
  | nil => intro st h; exact h
  | cons b rest ih => intro st h; exact ih _ (hstep st b h)

/-- A state predicate established while processing a listed folder and
preserved afterwards holds of the fold result. -/
theorem foldl_mem (env : GitEnv) (push : Bool) (P : RunGitState → Prop)
    (f : PyPath)
    (hstep : ∀ st b, P st → P (runGitStep env push st b))
    (hhit : ∀ st, P (runGitStep env push st f)) :
    ∀ (l : List PyPath) (st : RunGitState), f ∈ l →
      P (l.foldl (runGitStep env push) st) := by
  intro l
  induction l with
  | nil => intro st h; cases h
  | cons b rest ih =>
    intro st hf
    rcases List.mem_cons.mp hf with rfl | hf
    · exact foldl_inv env push P hstep rest _ (hhit st)
    · exact ih _ hf

theorem step_push_guard (env : GitEnv) (push : Bool) (st : RunGitState)
    (b : PyPath)
    (hst : ∀ f, (f, GIT_PUSH_CMD) ∈ st.cmds →
      env.runCmd f GIT_PULL_CMD = 0 ∧ push = true ∧
      env.pushPossible f = true ∧
      strContainsB (env.pushUrl f) "github.com" = false) :
    ∀ f, (f, GIT_PUSH_CMD) ∈ (runGitStep env push st b).cmds →
      env.runCmd f GIT_PULL_CMD = 0 ∧ push = true ∧
      env.pushPossible f = true ∧
      strContainsB (env.pushUrl f) "github.com" = false := by
  intro f hf
  unfold runGitStep at hf
  dsimp only at hf
  by_cases h1 : env.isDir b = false
  · rw [if_pos h1] at hf
    exact hst f hf
  · rw [if_neg h1] at hf
    by_cases h2 : env.pullPossible b = false
    · rw [if_pos h2] at hf
      exact hst f hf
    · rw [if_neg h2] at hf
      by_cases h3 : env.runCmd b GIT_PULL_CMD = 0
      · rw [if_pos h3] at hf
        by_cases h4 : (push && env.pushPossible b) = true
        · rw [if_pos h4] at hf
          by_cases h5 : strContainsB (env.pushUrl b) "github.com" = true
          · rw [if_pos h5] at hf
            rcases List.mem_append.mp hf with hf | hf
            · exact hst f hf
            · have he : GIT_PUSH_CMD = GIT_PULL_CMD :=
                congrArg Prod.snd (List.mem_singleton.mp hf)
              exact absurd he (by decide)
          · rw [if_neg h5] at hf
            have hmem : (f, GIT_PUSH_CMD) ∈
                (st.cmds ++ [(b, GIT_PULL_CMD)]) ++ [(b, GIT_PUSH_CMD)] := by
              by_cases h6 : env.runCmd b GIT_PUSH_CMD = 0
              · rw [if_pos h6] at hf
                exact hf
              · rw [if_neg h6] at hf
                exact hf
            rcases List.mem_append.mp hmem with hf2 | hf2
            · rcases List.mem_append.mp hf2 with hf2 | hf2
              · exact hst f hf2
              · have he : GIT_PUSH_CMD = GIT_PULL_CMD :=
                  congrArg Prod.snd (List.mem_singleton.mp hf2)
                exact absurd he (by decide)
            · have hfb : f = b := congrArg Prod.fst (List.mem_singleton.mp hf2)
              subst hfb
              have h4' : push = true ∧ env.pushPossible f = true := by
                simpa using h4
              exact ⟨h3, h4'.1, h4'.2, by simpa using h5⟩
        · rw [if_neg h4] at hf
          rcases List.mem_append.mp hf with hf | hf
          · exact hst f hf
          · have he : GIT_PUSH_CMD = GIT_PULL_CMD :=
              congrArg Prod.snd (List.mem_singleton.mp hf)
            exact absurd he (by decide)
      · rw [if_neg h3] at hf
        rcases List.mem_append.mp hf with hf | hf
        · exact hst f hf
        · have he : GIT_PUSH_CMD = GIT_PULL_CMD :=
            congrArg Prod.snd (List.mem_singleton.mp hf)
          exact absurd he (by decide)

theorem step_pull_attempt (env : GitEnv) (push : Bool) {f : PyPath}
    (hd : env.isDir f = true) (hp : env.pullPossible f = true) :
    ∀ st, (f, GIT_PULL_CMD) ∈ (runGitStep env push st f).cmds := by
  intro st
  unfold runGitStep
  dsimp only
  rw [if_neg (by simp [hd]), if_neg (by simp [hp])]
  repeat' split
  all_goals simp [List.mem_append]

theorem step_pullerr (env : GitEnv) (push : Bool) {f : PyPath}
    (hd : env.isDir f = true) (hp : env.pullPossible f = true)
    (hrc : env.runCmd f GIT_PULL_CMD ≠ 0) :
    ∀ st, (f, pullErrMsg (env.runCmd f GIT_PULL_CMD)) ∈
      (runGitStep env push st f).errRes := by
  intro st
  unfold runGitStep
  dsimp only
  rw [if_neg (by simp [hd]), if_neg (by simp [hp]), if_neg hrc]
  exact odSet_mem_self _ _ _

theorem step_pullerr_preserved (env : GitEnv) (push : Bool) {f : PyPath}
    (hp : env.pullPossible f = true)
    (hrc : env.runCmd f GIT_PULL_CMD ≠ 0) :
    ∀ st b, (f, pullErrMsg (env.runCmd f GIT_PULL_CMD)) ∈ st.errRes →
      (f, pullErrMsg (env.runCmd f GIT_PULL_CMD)) ∈
        (runGitStep env push st b).errRes := by
  intro st b h
  by_cases hbf : b = f
  · subst hbf
    unfold runGitStep
    dsimp only
    by_cases h1 : env.isDir b = false
    · rw [if_pos h1]; exact h
    · rw [if_neg h1, if_neg (by simp [hp]), if_neg hrc]
      exact odSet_mem_preserve b _ h (.inr rfl)
  · unfold runGitStep
    dsimp only
    repeat' split
    all_goals first
      | exact h
      | exact odSet_mem_preserve b _ h (.inl hbf)

/-- C9: over any run of run_git, git push --all is only ever invoked for a
folder whose git pull returned 0 and with pushing enabled by the CLI flag,
the push-possible check succeeded and the push URL free of github.com;
a failed pull records a per-folder error, and the loop still attempts the
pull for every other eligible listed folder (processing continues). -/
theorem run_git_push_guard (env : GitEnv) (git_do_push : Bool)
    (folders : List PyPath) :
    (∀ f, (f, GIT_PUSH_CMD) ∈ (run_git env git_do_push folders).cmds →
      env.runCmd f GIT_PULL_CMD = 0 ∧ git_do_push = true ∧
      env.pushPossible f = true ∧
      strContainsB (env.pushUrl f) "github.com" = false) ∧
    (∀ f ∈ folders, env.isDir f = true → env.pullPossible f = true →
      (f, GIT_PULL_CMD) ∈ (run_git env git_do_push folders).cmds) ∧
    (∀ f ∈ folders, env.isDir f = true → env.pullPossible f = true →
      env.runCmd f GIT_PULL_CMD ≠ 0 →
      (f, pullErrMsg (env.runCmd f GIT_PULL_CMD)) ∈
        (run_git env git_do_push folders).errRes) := by
  refine ⟨?_, ?_, ?_⟩
  · exact foldl_inv env git_do_push
      (fun st => ∀ f, (f, GIT_PUSH_CMD) ∈ st.cmds →
        env.runCmd f GIT_PULL_CMD = 0 ∧ git_do_push = true ∧
        env.pushPossible f = true ∧
        strContainsB (env.pushUrl f) "github.com" = false)
      (fun st b hst => step_push_guard env git_do_push st b hst)
      folders ⟨[], [], false, []⟩
      (fun f hf => absurd hf (List.not_mem_nil _))
  · intro f hf hd hp
    exact foldl_mem env git_do_push
      (fun st => (f, GIT_PULL_CMD) ∈ st.cmds) f
      (fun st b h => step_cmds_mono env git_do_push st b h)
      (step_pull_attempt env git_do_push hd hp)
      folders ⟨[], [], false, []⟩ hf
  · intro f hf hd hp hrc
    exact foldl_mem env git_do_push
      (fun st => (f, pullErrMsg (env.runCmd f GIT_PULL_CMD)) ∈ st.errRes) f
      (fun st b h => step_pullerr_preserved env git_do_push hp hrc st b h)
      (step_pullerr env git_do_push hd hp hrc)
      folders ⟨[], [], false, []⟩ hf

/-- A run environment in which the pull of every folder fails with exit
code 1. -/
def envPullFails : GitEnv :=
  ⟨fun _ => true, fun _ => true, fun _ => true, fun _ => "u",
   fun _ c => if c = GIT_PULL_CMD then 1 else 0⟩

/-- A run environment in which every command succeeds and the push URL is
not a github.com one. -/
def envAllOk : GitEnv :=
  ⟨fun _ => true, fun _ => true, fun _ => true, fun _ => "u",
   fun _ _ => 0⟩

/-- C9 witness input: with pushing enabled on a healthy folder the push
that actually happens satisfies all four guard conditions, and with a
failing pull the error entry for the folder is present in the error dict. -/
theorem run_git_push_guard_witness :
    (envAllOk.runCmd (pyPathOfString "w") GIT_PULL_CMD = 0 ∧ true = true ∧
      envAllOk.pushPossible (pyPathOfString "w") = true ∧
      strContainsB (envAllOk.pushUrl (pyPathOfString "w")) "github.com" =
        false) ∧
    (pyPathOfString "w",
      pullErrMsg (envPullFails.runCmd (pyPathOfString "w") GIT_PULL_CMD)) ∈
      (run_git envPullFails true [pyPathOfString "w"]).errRes :=
  ⟨(run_git_push_guard envAllOk true [pyPathOfString "w"]).1
      (pyPathOfString "w") (by decide),
   (run_git_push_guard envPullFails true [pyPathOfString "w"]).2.2
      (pyPathOfString "w") (List.mem_singleton.mpr rfl) rfl rfl (by decide)⟩
